import Mathlib

/-!
Verification of the crawler (`crawl.py`) and the ingestion script
(`buildDB.py`) of the chatbot repository, over a shallow embedding.
Python strings are modelled as `List Char`; the crawl driver loop is
modelled as a step function over an explicit state, with the network
abstracted as an oracle mapping a URL and a 1-based attempt number to
the outcome of that fetch attempt.
-/

/-- A URL, as the Python code handles it: a plain string. -/
abbrev URL := List Char

/-- The character class stripped by Python `str.strip()` with no argument. -/
def isSpaceC (c : Char) : Bool := c.isWhitespace

/-- Leading-whitespace strip (left half of Python `str.strip()`). -/
def stripLead (l : List Char) : List Char := l.dropWhile isSpaceC

/-- Trailing-whitespace strip (right half of Python `str.strip()`). -/
def stripTrailWs (l : List Char) : List Char := (l.reverse.dropWhile isSpaceC).reverse

/-- Python `str.strip()`: whitespace removed from both ends. -/
def stripWs (l : List Char) : List Char := stripTrailWs (stripLead l)

/-- Python `s.split("#")[0]`: the prefix before the first hash mark. -/
def dropFrag (l : List Char) : List Char := l.takeWhile (fun c => c ≠ '#')

/-- The `if full.endswith("/"): full = full[:-1]` step of `extract_links`:
removes exactly one trailing slash. -/
def stripTrailSlash (l : List Char) : List Char :=
  if l.getLast? = some '/' then l.dropLast else l

/-- Python `s.rstrip("/")`: removes every trailing slash (used on seeds). -/
def rstripSlashes (l : List Char) : List Char :=
  (l.reverse.dropWhile (fun c => c = '/')).reverse

/-- Does the string start with an explicit http or https scheme? -/
def hasScheme (l : List Char) : Bool :=
  decide (l.take 7 = "http://".toList) || decide (l.take 8 = "https://".toList)

/-- Length of the scheme part (`https://` or `http://`) of a base URL. -/
def schemeLen (base : List Char) : Nat :=
  if base.take 8 = "https://".toList then 8
  else if base.take 7 = "http://".toList then 7
  else 0

/-- Scheme plus authority of a base http(s) URL. -/
def originOf (base : List Char) : List Char :=
  base.take (schemeLen base) ++ (base.drop (schemeLen base)).takeWhile (fun c => c ≠ '/')

/-- The base URL truncated after the last slash of its path
(the directory against which a relative reference is resolved). -/
def dirOf (base : List Char) : List Char :=
  if ((base.drop (schemeLen base)).contains '/') then
    base.take (schemeLen base) ++
      ((base.drop (schemeLen base)).reverse.dropWhile (fun c => c ≠ '/')).reverse
  else base ++ ['/']

/-- Model of `urllib.parse.urljoin(base, href)` restricted to http(s) URLs:
an empty reference yields the base, an absolute reference replaces the base,
a protocol-relative reference takes the base scheme, a root-relative
reference takes the base origin, and anything else resolves against the
base directory. -/
def urljoinM (base href : List Char) : List Char :=
  if href = [] then base
  else if hasScheme href then href
  else if href.take 2 = "//".toList then
    (if base.take 8 = "https://".toList then "https:".toList else "http:".toList) ++ href
  else if href.take 1 = "/".toList then originOf base ++ href
  else dirOf base ++ href

/-- The normalization each discovered href undergoes in `extract_links`
(crawl.py lines 169-171): `urljoin(base_url, href).split("#")[0].strip()`
followed by removal of one trailing slash. -/
def normalizeLink (base href : List Char) : List Char :=
  stripTrailSlash (stripWs (dropFrag (urljoinM base href)))

/-- Document Writer gate and file layout (crawl.py lines 259-268):
the provenance header written before the cleaned text. -/
def provenanceHeader (url title : List Char) : List Char :=
  "Source URL: ".toList ++ url ++ "\n".toList ++
  "Page Title: ".toList ++ title ++ "\n\n".toList

/-- The write decision of the crawl loop: a document file is produced,
with header and cleaned text, only when `len(clean_text) > 150`. -/
def writeDoc (url title text : List Char) : Option (List Char) :=
  if 150 < text.length then some (provenanceHeader url title ++ text) else none

/-- Python `s.replace(pat, rep)`: replace every occurrence, scanning left
to right. -/
def replaceAll (pat rep : List Char) : List Char → List Char
  | [] => []
  | c :: rest =>
    if h : pat ≠ [] ∧ (c :: rest).take pat.length = pat then
      rep ++ replaceAll pat rep ((c :: rest).drop pat.length)
    else c :: replaceAll pat rep rest
termination_by l => l.length
decreasing_by
  · simp only [List.length_drop, List.length_cons]
    have hp : 0 < pat.length := List.length_pos.mpr h.1
    omega
  · simp only [List.length_cons]
    omega

/-- `clean_filename` (crawl.py lines 86-90): drop the scheme, turn slashes
into underscores, keep only alphanumerics, underscore and hyphen, truncate
to 80 characters, append ".txt". -/
def clean_filename (url : List Char) : List Char :=
  let name := replaceAll "/".toList "_".toList
    (replaceAll "http://".toList []
      (replaceAll "https://".toList [] url))
  let name2 := name.filter (fun c => c.isAlphanum || c = '_' || c = '-')
  name2.take 80 ++ ".txt".toList

/-- The UI-chrome denylist of `extract_clean_content` (crawl.py lines 145-149). -/
def junkLabels : List (List Char) :=
  ["Apply Now", "Read More", "Learn More", "Click Here",
   "Skip to main", "Search form", "Toggle navigation",
   "Back to top", "Follow us", "Share this"].map String.toList

/-- Python `str.lower()` on a line. -/
def lowerL (l : List Char) : List Char := l.map Char.toLower

/-- `re.match(r"^[\W_]+$", line)`: non-empty and every character is a
non-word character or an underscore. -/
def punctOnly (l : List Char) : Bool :=
  !l.isEmpty && l.all (fun c => !c.isAlphanum || c = '_')

/-- The membership-free part of the line filter of `extract_clean_content`
(crawl.py lines 135-157): keep a trimmed line iff it is non-empty, at
least 10 characters, not a UI-chrome label and not punctuation-only. -/
def staticKeep (line : List Char) : Bool :=
  !line.isEmpty && decide (10 ≤ line.length) &&
  !(junkLabels.any (fun lab => decide (lowerL line = lowerL lab))) &&
  !punctOnly line

/-- The line loop of `extract_clean_content`: each raw line is trimmed;
a line equal to an earlier kept line (`seen`) is skipped, otherwise it is
kept when `staticKeep` holds and recorded in `seen`. -/
def filterLines (seen : List (List Char)) : List (List Char) → List (List Char)
  | [] => []
  | raw :: rest =>
    let line := stripWs raw
    if staticKeep line ∧ line ∉ seen then
      line :: filterLines (line :: seen) rest
    else filterLines seen rest

/-- First-occurrence deduplication, stated independently of the
accumulator: keep each element's first occurrence, in order. -/
def dedupFirst : List (List Char) → List (List Char)
  | [] => []
  | x :: xs => x :: dedupFirst (xs.filter (fun y => decide (y ≠ x)))
termination_by l => l.length
decreasing_by
  simp only [List.length_cons]
  exact Nat.lt_succ_of_le (List.length_filter_le _ _)

/-- `START_URL` constant of crawl.py. -/
def START_URL : List Char := "https://www.bracu.ac.bd/".toList

/-- `base = START_URL.rstrip("/")` (crawl.py line 210). -/
def crawlBase : List Char := rstripSlashes START_URL

/-- `SEED_PATHS` constant of crawl.py. -/
def SEED_PATHS : List (List Char) :=
  ["/", "/about", "/about/overview", "/about/mission-vision", "/about/history",
   "/about/governance", "/about/accreditation", "/academics", "/academics/programs",
   "/academics/undergraduate-programs", "/academics/graduate-programs",
   "/academics/departments", "/admissions", "/admissions/undergraduate",
   "/admissions/graduate", "/admissions/international-students",
   "/admissions/tuition-fees", "/admissions/scholarships-and-financial-aid",
   "/research", "/research/centers", "/research/publications", "/student-life",
   "/student-life/clubs", "/student-life/residential-life",
   "/student-life/career-services", "/campus", "/faculty", "/contact"].map String.toList

/-- The normalized seed URLs: `(base + path).rstrip("/")` for each seed path. -/
def seedURLs : List URL := SEED_PATHS.map (fun p => rstripSlashes (crawlBase ++ p))

/-- The guarded enqueue used both when seeding (crawl.py lines 213-214) and
when enqueuing discovered links (lines 275-276): append iff the link is in
neither `visited` nor `queue`. -/
def enqueueLink (visited : List URL) (queue : List URL) (link : URL) : List URL :=
  if link ∉ visited ∧ link ∉ queue then queue ++ [link] else queue

/-- The seeding loop of `main` (crawl.py lines 211-214), run after the
checkpoint (if any) has populated `visited` and `queue`. -/
def seedQueue (visited queue : List URL) : List URL :=
  seedURLs.foldl (enqueueLink visited) queue

/-- `MAX_RETRIES` constant of crawl.py. -/
def MAX_RETRIES : Nat := 2

/-- What the driver extracts from one successful fetch attempt: the length
of the cleaned text and the discovered (normalized, validated) links. -/
structure Fetch where
  textLen : Nat
  links : List URL
deriving DecidableEq

/-- The mutable state of the crawl loop in `main`. -/
structure CrawlState where
  visited : List URL
  queue : List URL
  count : Nat
deriving DecidableEq

/-- Observable events of one iteration of the while loop: fetch attempts
issued, whether a document file was written, politeness sleeps performed,
and the URL fetched (if the iteration was not skipped). -/
structure IterLog where
  attempts : Nat
  written : Bool
  politeness : Nat
  fetched : Option URL
deriving DecidableEq

/-- The retry loop `for attempt in range(1, MAX_RETRIES + 1)` (crawl.py
lines 246-286): try attempts `a, a+1, ...` while `n` attempts remain;
return the first successful result together with the number of attempts
actually issued. -/
def attemptLoop (oracle : Nat → Option Fetch) : Nat → Nat → Option Fetch × Nat
  | _, 0 => (none, 0)
  | a, n + 1 =>
    match oracle a with
    | some f => (some f, 1)
    | none =>
      let r := attemptLoop oracle (a + 1) n
      (r.1, r.2 + 1)

/-- The link-enqueue loop (crawl.py lines 274-277): `visited` is fixed
while `queue` grows. -/
def enqueueAll (visited : List URL) (queue : List URL) (links : List URL) : List URL :=
  links.foldl (enqueueLink visited) queue

/-- The `if current_url.endswith("/")` strip at the top of the loop body
(crawl.py lines 238-239). -/
def stripSlash1 (u : URL) : URL := if u.getLast? = some '/' then u.dropLast else u

/-- One iteration of the while loop of `main` (crawl.py lines 236-298):
dequeue, strip one trailing slash, skip if visited (no fetch, no
politeness sleep), otherwise run the retry loop; on success enqueue the
discovered links and count the page, then in all fetch outcomes mark the
URL visited and sleep the politeness delay once. -/
def step (oracle : URL → Nat → Option Fetch) (st : CrawlState) : CrawlState × IterLog :=
  match st.queue with
  | [] => (st, ⟨0, false, 0, none⟩)
  | u0 :: rest =>
    let u := stripSlash1 u0
    if u ∈ st.visited then
      ({ st with queue := rest }, ⟨0, false, 0, none⟩)
    else
      match attemptLoop (oracle u) 1 MAX_RETRIES with
      | (some f, used) =>
        ({ visited := u :: st.visited,
           queue := enqueueAll st.visited rest f.links,
           count := st.count + 1 },
         ⟨used, decide (150 < f.textLen), 1, some u⟩)
      | (none, used) =>
        ({ visited := u :: st.visited, queue := rest, count := st.count },
         ⟨used, false, 1, some u⟩)

/-- The while loop of `main`, fuelled: iterate `step` while the queue is
non-empty and fewer than `maxPages` pages have been fetched successfully,
collecting the per-iteration logs. -/
def run (oracle : URL → Nat → Option Fetch) (maxPages : Nat) :
    CrawlState → Nat → CrawlState × List IterLog
  | st, 0 => (st, [])
  | st, fuel + 1 =>
    if st.queue = [] ∨ maxPages ≤ st.count then (st, [])
    else
      let p := step oracle st
      let r := run oracle maxPages p.1 fuel
      (r.1, p.2 :: r.2)

/-- Number of bytes of the UTF-8 encoding of a character. -/
def utf8SizeC (c : Char) : Nat :=
  if c.toNat < 0x80 then 1
  else if c.toNat < 0x800 then 2
  else if c.toNat < 0x10000 then 3
  else 4

/-- Number of bytes of the UTF-8 encoding of a string. -/
def utf8Len (l : List Char) : Nat := (l.map utf8SizeC).sum

/-- `chunk_size` constant of buildDB.py. -/
def chunk_size : Nat := 1000

/-- `range(0, n, chunk_size)`: the chunk start offsets (character indices). -/
def chunkStarts (n : Nat) : List Nat :=
  (List.range ((n + chunk_size - 1) / chunk_size)).map (fun k => k * chunk_size)

/-- One record appended by the chunking loop of buildDB.py: the id
`f"{filename}_{i}"`, the chunk `content[i:i+chunk_size]`, and the
metadata `{"source": filename}`. -/
structure ChunkEntry where
  id : List Char
  doc : List Char
  source : List Char
deriving DecidableEq

/-- The chunking loop of buildDB.py (lines 28-35) applied to one file. -/
def chunkFile (filename content : List Char) : List ChunkEntry :=
  (chunkStarts content.length).map (fun i =>
    ⟨filename ++ "_".toList ++ Nat.toDigits 10 i,
     (content.drop i).take chunk_size, filename⟩)

/-! ## Helper lemmas -/

theorem enqueueAll_spec (visited links : List URL) :
    ∀ queue : List URL, ∃ s : List URL,
      enqueueAll visited queue links = queue ++ s ∧
      ∀ u ∈ s, u ∈ links ∧ u ∉ visited ∧ u ∉ queue := by
  induction links with
  | nil => exact fun queue => ⟨[], by simp [enqueueAll], by simp⟩
  | cons a links ih =>
    intro queue
    by_cases h : a ∉ visited ∧ a ∉ queue
    · obtain ⟨s, hs, hmem⟩ := ih (queue ++ [a])
      refine ⟨a :: s, ?_, ?_⟩
      · simpa [enqueueAll, enqueueLink, h] using hs
      · intro u hu
        rcases List.mem_cons.mp hu with rfl | hu
        · exact ⟨List.mem_cons_self _ _, h.1, h.2⟩
        · obtain ⟨h1, h2, h3⟩ := hmem u hu
          refine ⟨List.mem_cons_of_mem _ h1, h2, fun hq => h3 ?_⟩
          exact List.mem_append_left _ hq
    · obtain ⟨s, hs, hmem⟩ := ih queue
      refine ⟨s, ?_, ?_⟩
      · simpa [enqueueAll, enqueueLink, h] using hs
      · intro u hu
        obtain ⟨h1, h2, h3⟩ := hmem u hu
        exact ⟨List.mem_cons_of_mem _ h1, h2, h3⟩

theorem enqueueAll_nodup (visited links : List URL) :
    ∀ queue : List URL, queue.Nodup → (enqueueAll visited queue links).Nodup := by
  induction links with
  | nil => exact fun queue h => h
  | cons a links ih =>
    intro queue hq
    by_cases h : a ∉ visited ∧ a ∉ queue
    · have : (queue ++ [a]).Nodup := by
        simp [List.nodup_append, hq, h.2]
      simpa [enqueueAll, enqueueLink, h] using ih (queue ++ [a]) this
    · simpa [enqueueAll, enqueueLink, h] using ih queue hq

theorem attemptLoop_some (oracle : Nat → Option Fetch) :
    ∀ n a f used, attemptLoop oracle a n = (some f, used) → ∃ k, oracle k = some f := by
  intro n
  induction n with
  | zero => intro a f used h; simp [attemptLoop] at h
  | succ n ih =>
    intro a f used h
    unfold attemptLoop at h
    cases ho : oracle a with
    | some g =>
      rw [ho] at h
      exact ⟨a, by rw [ho, (Prod.mk.injEq _ _ _ _).mp h |>.1]⟩
    | none =>
      rw [ho] at h
      simp only [Prod.mk.injEq] at h
      exact ih (a + 1) f _ (by rw [← h.1])

theorem attemptLoop_all_fail (oracle : Nat → Option Fetch) :
    ∀ n a, (∀ k, a ≤ k → k < a + n → oracle k = none) →
      attemptLoop oracle a n = (none, n) := by
  intro n
  induction n with
  | zero => intro a _; rfl
  | succ n ih =>
    intro a h
    unfold attemptLoop
    rw [h a (Nat.le_refl a) (by omega)]
    simp only
    rw [ih (a + 1) (fun k hk1 hk2 => h k (by omega) (by omega))]

theorem step_nil (oracle : URL → Nat → Option Fetch) (st : CrawlState)
    (h : st.queue = []) : step oracle st = (st, ⟨0, false, 0, none⟩) := by
  unfold step
  rw [h]

theorem step_skip (oracle : URL → Nat → Option Fetch) (st : CrawlState)
    (u0 : URL) (rest : List URL) (hq : st.queue = u0 :: rest)
    (hv : stripSlash1 u0 ∈ st.visited) :
    step oracle st = ({ st with queue := rest }, ⟨0, false, 0, none⟩) := by
  unfold step
  rw [hq]
  simp [hv]

theorem step_success (oracle : URL → Nat → Option Fetch) (st : CrawlState)
    (u0 : URL) (rest : List URL) (f : Fetch) (used : Nat)
    (hq : st.queue = u0 :: rest) (hv : stripSlash1 u0 ∉ st.visited)
    (hA : attemptLoop (oracle (stripSlash1 u0)) 1 MAX_RETRIES = (some f, used)) :
    step oracle st =
      ({ visited := stripSlash1 u0 :: st.visited,
         queue := enqueueAll st.visited rest f.links,
         count := st.count + 1 },
       ⟨used, decide (150 < f.textLen), 1, some (stripSlash1 u0)⟩) := by
  unfold step
  rw [hq]
  simp [hv, hA]

theorem step_failure (oracle : URL → Nat → Option Fetch) (st : CrawlState)
    (u0 : URL) (rest : List URL) (used : Nat)
    (hq : st.queue = u0 :: rest) (hv : stripSlash1 u0 ∉ st.visited)
    (hA : attemptLoop (oracle (stripSlash1 u0)) 1 MAX_RETRIES = (none, used)) :
    step oracle st =
      ({ visited := stripSlash1 u0 :: st.visited, queue := rest, count := st.count },
       ⟨used, false, 1, some (stripSlash1 u0)⟩) := by
  unfold step
  rw [hq]
  simp [hv, hA]

theorem step_cases (oracle : URL → Nat → Option Fetch) (st : CrawlState) :
    (st.queue = [] ∧ step oracle st = (st, ⟨0, false, 0, none⟩)) ∨
    (∃ u0 rest, st.queue = u0 :: rest ∧ stripSlash1 u0 ∈ st.visited ∧
      step oracle st = ({ st with queue := rest }, ⟨0, false, 0, none⟩)) ∨
    (∃ u0 rest f used, st.queue = u0 :: rest ∧ stripSlash1 u0 ∉ st.visited ∧
      attemptLoop (oracle (stripSlash1 u0)) 1 MAX_RETRIES = (some f, used) ∧
      step oracle st =
        ({ visited := stripSlash1 u0 :: st.visited,
           queue := enqueueAll st.visited rest f.links,
           count := st.count + 1 },
         ⟨used, decide (150 < f.textLen), 1, some (stripSlash1 u0)⟩)) ∨
    (∃ u0 rest used, st.queue = u0 :: rest ∧ stripSlash1 u0 ∉ st.visited ∧
      attemptLoop (oracle (stripSlash1 u0)) 1 MAX_RETRIES = (none, used) ∧
      step oracle st =
        ({ visited := stripSlash1 u0 :: st.visited, queue := rest, count := st.count },
         ⟨used, false, 1, some (stripSlash1 u0)⟩)) := by
  rcases hq : st.queue with _ | ⟨u0, rest⟩
  · exact Or.inl ⟨rfl, step_nil oracle st hq⟩
  · by_cases hv : stripSlash1 u0 ∈ st.visited
    · exact Or.inr (Or.inl ⟨u0, rest, rfl, hv, step_skip oracle st u0 rest hq hv⟩)
    · rcases hA : attemptLoop (oracle (stripSlash1 u0)) 1 MAX_RETRIES with ⟨r, used⟩
      cases r with
      | some f =>
        exact Or.inr (Or.inr (Or.inl ⟨u0, rest, f, used, rfl, hv, hA,
          step_success oracle st u0 rest f used hq hv hA⟩))
      | none =>
        exact Or.inr (Or.inr (Or.inr ⟨u0, rest, used, rfl, hv, hA,
          step_failure oracle st u0 rest used hq hv hA⟩))

theorem step_visited_mono (oracle : URL → Nat → Option Fetch) (st : CrawlState) :
    ∀ x ∈ st.visited, x ∈ (step oracle st).1.visited := by
  intro x hx
  rcases step_cases oracle st with ⟨_, hstep⟩ | ⟨u0, rest, _, _, hstep⟩ |
    ⟨u0, rest, f, used, _, _, _, hstep⟩ | ⟨u0, rest, used, _, _, _, hstep⟩ <;>
    rw [hstep] <;> simp [hx]

theorem step_fetched_spec (oracle : URL → Nat → Option Fetch) (st : CrawlState)
    (y : URL) (h : (step oracle st).2.fetched = some y) :
    y ∉ st.visited ∧ y ∈ (step oracle st).1.visited := by
  rcases step_cases oracle st with ⟨_, hstep⟩ | ⟨u0, rest, _, _, hstep⟩ |
    ⟨u0, rest, f, used, _, hv, _, hstep⟩ | ⟨u0, rest, used, _, hv, _, hstep⟩
  · rw [hstep] at h
    simp at h
  · rw [hstep] at h
    simp at h
  · rw [hstep] at h ⊢
    simp only [Option.some.injEq] at h
    subst h
    exact ⟨hv, by simp⟩
  · rw [hstep] at h ⊢
    simp only [Option.some.injEq] at h
    subst h
    exact ⟨hv, by simp⟩

theorem step_politeness_spec (oracle : URL → Nat → Option Fetch) (st : CrawlState) :
    ((step oracle st).2.fetched = none ∧ (step oracle st).2.politeness = 0) ∨
    (∃ y, (step oracle st).2.fetched = some y ∧ (step oracle st).2.politeness = 1) := by
  rcases step_cases oracle st with ⟨_, hstep⟩ | ⟨u0, rest, _, _, hstep⟩ |
    ⟨u0, rest, f, used, _, _, _, hstep⟩ | ⟨u0, rest, used, _, _, _, hstep⟩ <;>
    rw [hstep] <;> simp

/-- The URLs the driver actually fetched during a run, in order. -/
def fetchedOf (logs : List IterLog) : List URL := logs.filterMap IterLog.fetched

/-- Total number of politeness-interval suspensions over a run. -/
def politenessTotal (logs : List IterLog) : Nat := (logs.map IterLog.politeness).sum

theorem run_succ_stop (oracle : URL → Nat → Option Fetch) (maxPages : Nat)
    (st : CrawlState) (fuel : Nat) (h : st.queue = [] ∨ maxPages ≤ st.count) :
    run oracle maxPages st (fuel + 1) = (st, []) := by
  unfold run
  rw [if_pos h]

theorem run_succ_go (oracle : URL → Nat → Option Fetch) (maxPages : Nat)
    (st : CrawlState) (fuel : Nat) (h : ¬(st.queue = [] ∨ maxPages ≤ st.count)) :
    run oracle maxPages st (fuel + 1) =
      ((run oracle maxPages (step oracle st).1 fuel).1,
       (step oracle st).2 :: (run oracle maxPages (step oracle st).1 fuel).2) := by
  conv_lhs => rw [run]
  rw [if_neg h]

theorem run_fetched_not_visited (oracle : URL → Nat → Option Fetch) (maxPages : Nat) :
    ∀ (fuel : Nat) (st : CrawlState) (x : URL),
      x ∈ fetchedOf (run oracle maxPages st fuel).2 → x ∉ st.visited := by
  intro fuel
  induction fuel with
  | zero =>
    intro st x hx
    simp [run, fetchedOf] at hx
  | succ n ih =>
    intro st x hx
    by_cases hstop : st.queue = [] ∨ maxPages ≤ st.count
    · rw [run_succ_stop _ _ _ _ hstop] at hx
      simp [fetchedOf] at hx
    · rw [run_succ_go _ _ _ _ hstop] at hx
      simp only [fetchedOf, List.filterMap_cons] at hx
      intro hxv
      cases hf : (step oracle st).2.fetched with
      | none =>
        rw [hf] at hx
        exact ih _ x hx (step_visited_mono oracle st x hxv)
      | some y =>
        rw [hf] at hx
        rcases List.mem_cons.mp hx with rfl | hx2
        · exact (step_fetched_spec oracle st x hf).1 hxv
        · exact ih _ x hx2 (step_visited_mono oracle st x hxv)

theorem run_fetched_nodup (oracle : URL → Nat → Option Fetch) (maxPages : Nat) :
    ∀ (fuel : Nat) (st : CrawlState),
      (fetchedOf (run oracle maxPages st fuel).2).Nodup := by
  intro fuel
  induction fuel with
  | zero =>
    intro st
    simp [run, fetchedOf]
  | succ n ih =>
    intro st
    by_cases hstop : st.queue = [] ∨ maxPages ≤ st.count
    · rw [run_succ_stop _ _ _ _ hstop]
      simp [fetchedOf]
    · rw [run_succ_go _ _ _ _ hstop]
      simp only [fetchedOf, List.filterMap_cons]
      cases hf : (step oracle st).2.fetched with
      | none => exact ih _
      | some y =>
        refine List.Nodup.cons ?_ (ih _)
        intro hy
        exact run_fetched_not_visited oracle maxPages n _ y hy
          (step_fetched_spec oracle st y hf).2

/-! ## C5: minimum-length gate -/

/-- C5: for a successfully fetched page, cleaned text of length at most 150
produces no document file, while length exactly 151 produces a file made of
the provenance header, a blank line and the cleaned text. -/
theorem c5_min_length_gate (url title text : List Char) :
    (text.length ≤ 150 → writeDoc url title text = none) ∧
    (text.length = 151 →
      writeDoc url title text = some (provenanceHeader url title ++ text)) := by
  constructor
  · intro h
    simp [writeDoc, Nat.not_lt.mpr h]
  · intro h
    simp [writeDoc, h]

/-- Witness for C5 at the boundary lengths 150 and 151. -/
theorem c5_min_length_gate_witness :
    writeDoc [] [] (List.replicate 150 'a') = none ∧
    writeDoc [] [] (List.replicate 151 'a') =
      some (provenanceHeader [] [] ++ List.replicate 151 'a') :=
  ⟨(c5_min_length_gate [] [] _).1 (by simp),
   (c5_min_length_gate [] [] _).2 (by simp)⟩

/-! ## C10: clean_filename bounded but not injective -/

theorem take80_txt_len (l : List Char) : (l.take 80 ++ ".txt".toList).length ≤ 84 := by
  simp only [List.length_append, List.length_take]
  have h1 : min 80 l.length ≤ 80 := Nat.min_le_left _ _
  have h2 : (".txt".toList).length = 4 := by decide
  omega

/-- C10: clean_filename always yields a name of at most 84 characters
(80 plus ".txt"), and it is not injective: two distinct URLs that differ
only in a dropped character map to the same filename. -/
theorem c10_clean_filename_bounded_not_injective :
    (∀ url : List Char, (clean_filename url).length ≤ 84) ∧
    clean_filename "https://www.bracu.ac.bd/x.".toList
      = clean_filename "https://www.bracu.ac.bd/x,".toList ∧
    "https://www.bracu.ac.bd/x.".toList ≠ "https://www.bracu.ac.bd/x,".toList := by
  refine ⟨fun url => take80_txt_len _, ?_, by decide⟩
  simp +decide [clean_filename, replaceAll]

/-! ## C9: chunk keys of the ingestion script -/

theorem utf8Len_eq_length (l : List Char) (h : ∀ c ∈ l, utf8SizeC c = 1) :
    utf8Len l = l.length := by
  induction l with
  | nil => rfl
  | cons c l ih =>
    simp only [utf8Len, List.map_cons, List.sum_cons, List.length_cons] at *
    rw [h c (List.mem_cons_self _ _), ih (fun x hx => h x (List.mem_cons_of_mem _ hx))]
    omega

set_option maxRecDepth 100000 in
/-- C9 counterexample: for content made of 1001 two-byte characters, the
second chunk's key carries suffix 1000 (the character offset) while the
chunk actually starts at byte offset 2000 of the UTF-8 file. -/
theorem c9_chunk_key_counterexample :
    (chunkFile "f".toList (List.replicate 1001 'é')).get? 1 =
      some ⟨"f_1000".toList, List.replicate 1 'é', "f".toList⟩ ∧
    utf8Len ((List.replicate 1001 'é').take 1000) = 2000 ∧
    "f_1000".toList ≠ "f".toList ++ "_".toList ++ Nat.toDigits 10 2000 := by
  refine ⟨?_, ?_, by decide⟩
  · decide
  · rw [List.take_replicate]
    unfold utf8Len
    rw [List.map_replicate]
    simp [utf8SizeC]

/-- C9 amended: the numeric suffix of each chunk key is the character
offset of the chunk's start (k * chunk_size for the k-th chunk); it equals
the byte offset only when every character of the content is single-byte,
in which case the byte offset of the chunk's start is exactly that
suffix. -/
theorem c9_chunking_amended (filename content : List Char)
    (hascii : ∀ c ∈ content, utf8SizeC c = 1) (k : Nat) (e : ChunkEntry)
    (h : (chunkFile filename content).get? k = some e) :
    e.id = filename ++ "_".toList ++ Nat.toDigits 10 (k * chunk_size) ∧
    e.doc = (content.drop (k * chunk_size)).take chunk_size ∧
    e.source = filename ∧
    utf8Len (content.take (k * chunk_size)) = k * chunk_size := by
  have hk : k < (content.length + chunk_size - 1) / chunk_size := by
    by_contra hk
    have hnone : (List.range ((content.length + chunk_size - 1) / chunk_size)).get? k = none :=
      List.get?_eq_none.mpr (by simpa using Nat.le_of_not_lt hk)
    rw [chunkFile, List.get?_map, chunkStarts, List.get?_map, hnone] at h
    simp at h
  have hle : k * chunk_size ≤ content.length := by
    have h2 : (k + 1) * chunk_size ≤ content.length + chunk_size - 1 :=
      (Nat.le_div_iff_mul_le (by decide : 0 < chunk_size)).mp hk
    have h3 : (k + 1) * 1000 ≤ content.length + 1000 - 1 := by
      simpa [chunk_size] using h2
    simp only [chunk_size]
    omega
  have he : e = ⟨filename ++ "_".toList ++ Nat.toDigits 10 (k * chunk_size),
      (content.drop (k * chunk_size)).take chunk_size, filename⟩ := by
    rw [chunkFile, List.get?_map, chunkStarts, List.get?_map, List.get?_range hk] at h
    simpa using h.symm
  subst he
  refine ⟨rfl, rfl, rfl, ?_⟩
  have hall : ∀ c ∈ content.take (k * chunk_size), utf8SizeC c = 1 :=
    fun c hc => hascii c (List.mem_of_mem_take hc)
  rw [utf8Len_eq_length _ hall, List.length_take]
  omega

/-- Witness for C9's amended theorem on a small all-ASCII file. -/
theorem c9_chunking_amended_witness :
    ("f_0".toList : List Char) =
        "f".toList ++ "_".toList ++ Nat.toDigits 10 (0 * chunk_size) ∧
    (List.replicate 5 'a' : List Char) =
        ((List.replicate 5 'a').drop (0 * chunk_size)).take chunk_size ∧
    ("f".toList : List Char) = "f".toList ∧
    utf8Len ((List.replicate 5 'a').take (0 * chunk_size)) = 0 * chunk_size := by
  exact c9_chunking_amended "f".toList (List.replicate 5 'a') (by decide) 0
    ⟨"f_0".toList, List.replicate 5 'a', "f".toList⟩ (by decide)

/-! ## C3: seeding order on resume -/

/-- A URL restored from a checkpoint that is not itself a seed. -/
def restoredURL : URL := "https://www.bracu.ac.bd/zzz".toList

set_option maxRecDepth 100000 in
/-- C3 counterexample: with a restored checkpoint queue, the restored URL
stays at the head of the queue and the seeds are appended behind it, so
the seeds are not placed ahead of the restored URLs. -/
theorem c3_seeding_counterexample :
    (seedQueue [] [restoredURL]).get? 0 = some restoredURL ∧
    (seedQueue [] [restoredURL]).get? 1 = some crawlBase ∧
    crawlBase ∈ seedURLs ∧ restoredURL ∉ seedURLs := by
  decide

/-- C3 amended: the normalized seed paths are appended behind (not ahead
of) everything restored from the checkpoint, and seeding skips any seed
already in visited or already present in the queue. -/
theorem c3_seeding_amended (visited queue : List URL) :
    ∃ s : List URL, seedQueue visited queue = queue ++ s ∧
      ∀ u ∈ s, u ∈ seedURLs ∧ u ∉ visited ∧ u ∉ queue :=
  enqueueAll_spec visited seedURLs queue

/-! ## C2: idempotence of link normalization -/

theorem http_toList : "http://".toList = ['h', 't', 't', 'p', ':', '/', '/'] := rfl

theorem https_toList : "https://".toList = ['h', 't', 't', 'p', 's', ':', '/', '/'] := rfl

theorem mem_stripWs (l : List Char) (c : Char) (h : c ∈ stripWs l) : c ∈ l := by
  unfold stripWs stripTrailWs stripLead at h
  rw [List.mem_reverse] at h
  have h2 := (List.dropWhile_sublist _).subset h
  rw [List.mem_reverse] at h2
  exact (List.dropWhile_sublist _).subset h2

theorem mem_stripTrailSlash (l : List Char) (c : Char) (h : c ∈ stripTrailSlash l) :
    c ∈ l := by
  unfold stripTrailSlash at h
  by_cases hl : l.getLast? = some '/'
  · rw [if_pos hl] at h
    exact (List.dropLast_sublist _).subset h
  · rwa [if_neg hl] at h

theorem not_mem_dropFrag (l : List Char) : '#' ∉ dropFrag l := by
  intro h
  have := List.mem_takeWhile_imp h
  simp at this

theorem takeWhile_all (p : Char → Bool) :
    ∀ l : List Char, (∀ a ∈ l, p a = true) → l.takeWhile p = l := by
  intro l
  induction l with
  | nil => intro _; rfl
  | cons c rest ih =>
    intro h
    rw [List.takeWhile_cons, h c (List.mem_cons_self _ _)]
    simp only [if_true]
    rw [ih (fun a ha => h a (List.mem_cons_of_mem _ ha))]

theorem stripLead_of_head (l : List Char)
    (h : ∀ c, l.head? = some c → isSpaceC c = false) : stripLead l = l := by
  unfold stripLead
  cases l with
  | nil => rfl
  | cons c rest =>
    rw [List.dropWhile_cons, h c rfl]
    simp

theorem stripTrailWs_of_last (l : List Char)
    (h : ∀ c, l.getLast? = some c → isSpaceC c = false) : stripTrailWs l = l := by
  unfold stripTrailWs
  cases hl : l.reverse with
  | nil =>
    simp [List.reverse_eq_nil_iff.mp hl]
  | cons c rest =>
    have hc : l.getLast? = some c := by
      rw [← List.head?_reverse, hl]
      rfl
    rw [List.dropWhile_cons, h c hc]
    simp only [Bool.false_eq_true, if_false]
    rw [← hl, List.reverse_reverse]

theorem stripTrailSlash_of_last (l : List Char) (h : l.getLast? ≠ some '/') :
    stripTrailSlash l = l := by
  unfold stripTrailSlash
  rw [if_neg h]

theorem hasScheme_ne_nil (l : List Char) (h : hasScheme l = true) : l ≠ [] := by
  intro he
  subst he
  simp [hasScheme] at h

theorem hasScheme_head (l : List Char) (h : hasScheme l = true) :
    ∃ rest, l = 'h' :: rest := by
  unfold hasScheme at h
  simp only [Bool.or_eq_true, decide_eq_true_eq, http_toList, https_toList] at h
  cases l with
  | nil => rcases h with h | h <;> simp at h
  | cons c rest =>
    refine ⟨rest, ?_⟩
    rcases h with h | h <;>
      (rw [List.take_succ_cons] at h
       rw [((List.cons.injEq _ _ _ _).mp h).1])

theorem urljoinM_absolute (base v : List Char) (h : hasScheme v = true) :
    urljoinM base v = v := by
  unfold urljoinM
  rw [if_neg (hasScheme_ne_nil v h), if_pos h]

theorem not_hash_mem_normalizeLink (base u : List Char) :
    '#' ∉ normalizeLink base u := by
  intro h
  unfold normalizeLink at h
  exact not_mem_dropFrag _ (mem_stripWs _ _ (mem_stripTrailSlash _ _ h))

/-- The last character of a string is neither a slash nor whitespace
(vacuously true for the empty string). -/
def lastOkChar (l : List Char) : Bool :=
  match l.getLast? with
  | none => true
  | some c => !(decide (c = '/') || isSpaceC c)

/-- C2 counterexample: a URL ending in two slashes normalizes to a form
still ending in one slash, and normalizing again strips another slash, so
normalize is not idempotent on it. -/
theorem c2_normalization_counterexample :
    normalizeLink crawlBase
        (normalizeLink crawlBase "https://www.bracu.ac.bd//".toList) ≠
      normalizeLink crawlBase "https://www.bracu.ac.bd//".toList := by
  decide

/-- C2 amended: the link normalization is idempotent on every URL whose
once-normalized form carries an http(s) scheme and ends in neither a
slash nor whitespace; a URL ending in two or more slashes (whose
normalized form still ends in a slash) escapes this and loses one slash
per application. -/
theorem c2_normalization_amended (base u : List Char)
    (h1 : hasScheme (normalizeLink base u) = true)
    (h2 : lastOkChar (normalizeLink base u) = true) :
    normalizeLink base (normalizeLink base u) = normalizeLink base u := by
  set v := normalizeLink base u with hv
  have hnh : '#' ∉ v := by
    rw [hv]
    exact not_hash_mem_normalizeLink base u
  have hlast_slash : v.getLast? ≠ some '/' := by
    intro hc
    unfold lastOkChar at h2
    rw [hc] at h2
    simp at h2
  have hlast_ws : ∀ c, v.getLast? = some c → isSpaceC c = false := by
    intro c hc
    unfold lastOkChar at h2
    rw [hc] at h2
    simp only [Bool.not_eq_true', Bool.or_eq_false_iff] at h2
    exact h2.2
  obtain ⟨rest, hrest⟩ := hasScheme_head v h1
  have hhead : ∀ c, v.head? = some c → isSpaceC c = false := by
    intro c hc
    rw [hrest] at hc
    simp only [List.head?_cons, Option.some.injEq] at hc
    subst hc
    rfl
  have hnohash : ∀ a ∈ v, (decide (a ≠ '#')) = true := by
    intro a ha
    rcases eq_or_ne a '#' with rfl | hne
    · exact absurd ha hnh
    · simp [hne]
  show normalizeLink base v = v
  unfold normalizeLink
  rw [urljoinM_absolute base v h1,
      show dropFrag v = v from takeWhile_all _ v hnohash]
  unfold stripWs
  rw [stripLead_of_head v hhead, stripTrailWs_of_last v hlast_ws,
      stripTrailSlash_of_last v hlast_slash]

/-- Witness for C2's amended theorem: a fragment-bearing absolute URL
whose normalized form is stable under renormalization. -/
theorem c2_normalization_amended_witness :
    hasScheme (normalizeLink crawlBase "https://www.bracu.ac.bd/about#top".toList) = true ∧
    lastOkChar (normalizeLink crawlBase "https://www.bracu.ac.bd/about#top".toList) = true ∧
    normalizeLink crawlBase
        (normalizeLink crawlBase "https://www.bracu.ac.bd/about#top".toList) =
      normalizeLink crawlBase "https://www.bracu.ac.bd/about#top".toList :=
  ⟨by decide, by decide, c2_normalization_amended crawlBase _ (by decide) (by decide)⟩

/-! ## C1: frontier disjointness invariant -/

/-- Every URL in the list is slash-normalized (no trailing slash). -/
def SlashFree (l : List URL) : Prop := ∀ u ∈ l, u.getLast? ≠ some '/'

/-- The frontier invariant under scrutiny: visited and queue are disjoint,
the queue holds no duplicates, and queue entries are slash-normalized. -/
def FrontierInv (st : CrawlState) : Prop :=
  (∀ u ∈ st.visited, u ∉ st.queue) ∧ st.queue.Nodup ∧ SlashFree st.queue

/-- Link-discovery sanity: a successful fetch never lists the fetched URL
among its discovered links, and every discovered link is
slash-normalized. -/
def OracleOk (oracle : URL → Nat → Option Fetch) : Prop :=
  ∀ u a f, oracle u a = some f → u ∉ f.links ∧ SlashFree f.links

/-- A page that links to itself. -/
def loopURL : URL := "https://www.bracu.ac.bd/loop".toList

/-- A network in which every page fetch succeeds and discovers exactly one
link, back to `loopURL`. -/
def selfLinkOracle : URL → Nat → Option Fetch := fun _ _ => some ⟨200, [loopURL]⟩

/-- The crawl state just before `loopURL` is processed: the frontier is
disjoint. -/
def selfLinkState : CrawlState := ⟨[], [loopURL], 0⟩

/-- C1 counterexample: from a disjoint frontier, one driver iteration on a
page whose discovered links contain the page itself leaves the URL both
marked visited and present in the queue, so visited and queue intersect. -/
theorem c1_frontier_counterexample :
    (∀ u ∈ selfLinkState.visited, u ∉ selfLinkState.queue) ∧
    loopURL ∈ (step selfLinkOracle selfLinkState).1.visited ∧
    loopURL ∈ (step selfLinkOracle selfLinkState).1.queue := by
  decide

/-- C1 amended: the frontier invariant (disjointness, no queue duplicates,
slash-normalized queue entries) is preserved by every driver iteration
provided no page's discovered links include the page itself and all
discovered links are slash-normalized; with a self-link the URL can sit in
both visited and queue, although the defensive dequeue check still
prevents a second fetch. -/
theorem c1_frontier_amended (oracle : URL → Nat → Option Fetch) (st : CrawlState)
    (hOk : OracleOk oracle) (hInv : FrontierInv st) :
    FrontierInv (step oracle st).1 := by
  obtain ⟨hdisj, hnd, hsf⟩ := hInv
  rcases step_cases oracle st with ⟨hq, hstep⟩ | ⟨u0, rest, hq, hv, hstep⟩ |
    ⟨u0, rest, f, used, hq, hv, hA, hstep⟩ | ⟨u0, rest, used, hq, hv, hA, hstep⟩
  · rw [hstep]
    exact ⟨hdisj, hnd, hsf⟩
  · rw [hstep]
    refine ⟨?_, ?_, ?_⟩
    · intro u hu hmem
      exact hdisj u hu (by rw [hq]; exact List.mem_cons_of_mem _ hmem)
    · have h := hnd
      rw [hq] at h
      exact h.of_cons
    · intro u hu
      exact hsf u (by rw [hq]; exact List.mem_cons_of_mem _ hu)
  · have hu0 : u0.getLast? ≠ some '/' := hsf u0 (by rw [hq]; exact List.mem_cons_self _ _)
    have hss : stripSlash1 u0 = u0 := by
      unfold stripSlash1
      rw [if_neg hu0]
    have hndc := hnd
    rw [hq] at hndc
    obtain ⟨k, hk⟩ := attemptLoop_some _ _ _ _ _ hA
    rw [hss] at hk
    obtain ⟨hself, hlinks⟩ := hOk u0 k f hk
    obtain ⟨s, hs, hsmem⟩ := enqueueAll_spec st.visited f.links rest
    rw [hstep, hss]
    dsimp only
    refine ⟨?_, ?_, ?_⟩
    · intro u hu hmem
      rw [hs] at hmem
      rcases List.mem_cons.mp hu with rfl | hu2
      · rcases List.mem_append.mp hmem with h1 | h1
        · exact (List.nodup_cons.mp hndc).1 h1
        · exact hself (hsmem u h1).1
      · rcases List.mem_append.mp hmem with h1 | h1
        · exact hdisj u hu2 (by rw [hq]; exact List.mem_cons_of_mem _ h1)
        · exact (hsmem u h1).2.1 hu2
    · exact enqueueAll_nodup _ _ _ hndc.of_cons
    · intro u hu
      rw [hs] at hu
      rcases List.mem_append.mp hu with h1 | h1
      · exact hsf u (by rw [hq]; exact List.mem_cons_of_mem _ h1)
      · exact hlinks u (hsmem u h1).1
  · have hu0 : u0.getLast? ≠ some '/' := hsf u0 (by rw [hq]; exact List.mem_cons_self _ _)
    have hss : stripSlash1 u0 = u0 := by
      unfold stripSlash1
      rw [if_neg hu0]
    have hndc := hnd
    rw [hq] at hndc
    rw [hstep, hss]
    dsimp only
    refine ⟨?_, hndc.of_cons, ?_⟩
    · intro u hu hmem
      rcases List.mem_cons.mp hu with rfl | hu2
      · exact (List.nodup_cons.mp hndc).1 hmem
      · exact hdisj u hu2 (by rw [hq]; exact List.mem_cons_of_mem _ hmem)
    · intro u hu
      exact hsf u (by rw [hq]; exact List.mem_cons_of_mem _ hu)

/-- A network in which every fetch succeeds and discovers no links. -/
def okOracle : URL → Nat → Option Fetch := fun _ _ => some ⟨200, []⟩

/-- Witness for C1's amended theorem on a concrete state and oracle. -/
theorem c1_frontier_amended_witness :
    FrontierInv (step okOracle ⟨[], ["https://www.bracu.ac.bd/about".toList], 0⟩).1 := by
  refine c1_frontier_amended okOracle _ ?_ ?_
  · intro u a f h
    injection h with h
    subst h
    exact ⟨by simp, by intro x hx; simp at hx⟩
  · exact ⟨by decide, by decide, by unfold SlashFree; decide⟩

/-! ## C4: idempotent visitation -/

/-- C4: once a URL is in visited, a guarded enqueue of it leaves the queue
unchanged; a dequeued URL found in visited is skipped with no fetch
attempt and no politeness sleep; and over any run the driver never fetches
the same URL twice. -/
theorem c4_idempotent_visitation :
    (∀ (visited queue : List URL) (u : URL), u ∈ visited →
      enqueueLink visited queue u = queue) ∧
    (∀ (oracle : URL → Nat → Option Fetch) (st : CrawlState) (u0 : URL)
      (rest : List URL), st.queue = u0 :: rest → stripSlash1 u0 ∈ st.visited →
      step oracle st = ({ st with queue := rest }, ⟨0, false, 0, none⟩)) ∧
    (∀ (oracle : URL → Nat → Option Fetch) (maxPages fuel : Nat) (st : CrawlState),
      (fetchedOf (run oracle maxPages st fuel).2).Nodup) := by
  refine ⟨?_, ?_, ?_⟩
  · intro visited queue u hu
    simp [enqueueLink, hu]
  · exact fun oracle st u0 rest hq hv => step_skip oracle st u0 rest hq hv
  · exact fun oracle maxPages fuel st => run_fetched_nodup oracle maxPages fuel st

/-- Witness for C4 at a concrete visited URL, state and oracle. -/
theorem c4_idempotent_visitation_witness :
    enqueueLink [loopURL] [] loopURL = [] ∧
    step (fun _ _ => none) ⟨[loopURL], [loopURL], 0⟩ =
      (⟨[loopURL], [], 0⟩, ⟨0, false, 0, none⟩) ∧
    (fetchedOf (run (fun _ _ => none) 1 ⟨[], [loopURL], 0⟩ 3).2).Nodup := by
  refine ⟨c4_idempotent_visitation.1 _ _ _ (by decide), ?_,
    c4_idempotent_visitation.2.2 _ _ _ _⟩
  exact c4_idempotent_visitation.2.1 (fun _ _ => none) ⟨[loopURL], [loopURL], 0⟩
    loopURL [] rfl (by decide)

/-! ## C6: retry exhaustion -/

/-- C6: when every fetch attempt for the dequeued URL fails, the driver
makes exactly MAX_RETRIES attempts, marks the URL visited, writes no
document, enqueues no links (the queue is just the remainder), and does
not increment the successful-fetch count. -/
theorem c6_retry_exhaustion (oracle : URL → Nat → Option Fetch) (st : CrawlState)
    (u0 : URL) (rest : List URL) (hq : st.queue = u0 :: rest)
    (hnv : stripSlash1 u0 ∉ st.visited)
    (hfail : ∀ a, 1 ≤ a → a ≤ MAX_RETRIES → oracle (stripSlash1 u0) a = none) :
    step oracle st =
      ({ visited := stripSlash1 u0 :: st.visited, queue := rest, count := st.count },
       ⟨MAX_RETRIES, false, 1, some (stripSlash1 u0)⟩) := by
  have hA : attemptLoop (oracle (stripSlash1 u0)) 1 MAX_RETRIES = (none, MAX_RETRIES) :=
    attemptLoop_all_fail _ MAX_RETRIES 1 (fun k h1 h2 => hfail k h1 (by omega))
  exact step_failure oracle st u0 rest MAX_RETRIES hq hnv hA

/-- A URL whose every fetch attempt fails. -/
def deadURL : URL := "https://www.bracu.ac.bd/dead".toList

/-- Witness for C6: a concrete always-failing fetch. -/
theorem c6_retry_exhaustion_witness :
    step (fun _ _ => none) ⟨[], [deadURL], 0⟩ =
      ({ visited := stripSlash1 deadURL :: [], queue := [], count := 0 },
       ⟨MAX_RETRIES, false, 1, some (stripSlash1 deadURL)⟩) :=
  c6_retry_exhaustion (fun _ _ => none) ⟨[], [deadURL], 0⟩ deadURL [] rfl
    (by decide) (fun a _ _ => rfl)

/-! ## C8: politeness-wait discipline -/

/-- A URL whose first fetch attempt fails and second succeeds. -/
def flakyURL : URL := "https://www.bracu.ac.bd/flaky".toList

/-- A network where the first attempt on any URL fails and the second
succeeds with no links. -/
def flakyOracle : URL → Nat → Option Fetch :=
  fun _ a => if a = 1 then none else some ⟨200, []⟩

/-- C8 counterexample: a URL needing two fetch attempts incurs two
attempts but only one politeness suspension, so the number of politeness
waits does not equal the number of fetch attempts. -/
theorem c8_politeness_counterexample :
    (step flakyOracle ⟨[], [flakyURL], 0⟩).2.attempts = 2 ∧
    (step flakyOracle ⟨[], [flakyURL], 0⟩).2.politeness = 1 ∧
    (step flakyOracle ⟨[], [flakyURL], 0⟩).2.politeness ≠
      (step flakyOracle ⟨[], [flakyURL], 0⟩).2.attempts := by
  decide

/-- C8 amended: the politeness wait is invoked exactly once per processed
(dequeued and fetched) URL, regardless of how many fetch attempts that URL
needed; a dequeued URL skipped as already visited incurs no politeness
wait. Over any run, the number of politeness suspensions equals the number
of URLs fetched. -/
theorem c8_politeness_amended (oracle : URL → Nat → Option Fetch) (maxPages : Nat) :
    ∀ (fuel : Nat) (st : CrawlState),
      politenessTotal (run oracle maxPages st fuel).2 =
        (fetchedOf (run oracle maxPages st fuel).2).length := by
  intro fuel
  induction fuel with
  | zero =>
    intro st
    simp [run, fetchedOf, politenessTotal]
  | succ n ih =>
    intro st
    by_cases hstop : st.queue = [] ∨ maxPages ≤ st.count
    · rw [run_succ_stop _ _ _ _ hstop]
      simp [fetchedOf, politenessTotal]
    · rw [run_succ_go _ _ _ _ hstop]
      simp only [fetchedOf, politenessTotal, List.filterMap_cons, List.map_cons,
        List.sum_cons]
      rcases step_politeness_spec oracle st with ⟨hf, hp⟩ | ⟨y, hf, hp⟩
      · rw [hf, hp]
        simpa [politenessTotal, fetchedOf] using ih (step oracle st).1
      · rw [hf, hp]
        have := ih (step oracle st).1
        simp only [politenessTotal, fetchedOf] at this
        simp only [List.length_cons, this]
        omega

/-! ## C7: extraction line deduplication -/

theorem mem_dedupFirst_iff : ∀ (l : List (List Char)) (y : List Char),
    y ∈ dedupFirst l ↔ y ∈ l := by
  intro l
  induction l using dedupFirst.induct with
  | case1 => simp [dedupFirst]
  | case2 x xs ih =>
    intro y
    rw [dedupFirst]
    simp only [List.mem_cons]
    constructor
    · rintro (rfl | hy)
      · exact Or.inl rfl
      · exact Or.inr (List.mem_filter.mp ((ih y).mp hy)).1
    · rintro (rfl | hy)
      · exact Or.inl rfl
      · rcases eq_or_ne y x with rfl | hne
        · exact Or.inl rfl
        · exact Or.inr ((ih y).mpr (List.mem_filter.mpr ⟨hy, by simp [hne]⟩))

theorem dedupFirst_nodup : ∀ l : List (List Char), (dedupFirst l).Nodup := by
  intro l
  induction l using dedupFirst.induct with
  | case1 => simp [dedupFirst]
  | case2 x xs ih =>
    rw [dedupFirst]
    refine List.Nodup.cons ?_ ih
    intro hx
    have := List.mem_filter.mp ((mem_dedupFirst_iff _ x).mp hx)
    simp at this

theorem filterLines_eq_dedupFirst :
    ∀ (lines seen : List (List Char)),
      filterLines seen lines =
        dedupFirst (((lines.map stripWs).filter staticKeep).filter
          (fun x => decide (x ∉ seen))) := by
  intro lines
  induction lines with
  | nil =>
    intro seen
    simp [filterLines, dedupFirst]
  | cons raw rest ih =>
    intro seen
    simp only [filterLines, List.map_cons, List.filter_cons]
    by_cases hs : staticKeep (stripWs raw)
    · by_cases hm : stripWs raw ∈ seen
      · rw [if_neg (fun hc => hc.2 hm)]
        rw [ih seen]
        simp [hs, hm]
      · rw [if_pos ⟨hs, hm⟩]
        rw [ih (stripWs raw :: seen)]
        have hd : (decide (stripWs raw ∉ seen)) = true := by simp [hm]
        simp only [hs, if_true, hd, List.filter_cons_of_pos]
        rw [dedupFirst]
        congr 1
        refine Eq.trans (congrArg dedupFirst ?_) rfl
        rw [List.filter_filter, List.filter_filter, List.filter_filter]
        apply List.filter_congr
        intro x hx
        by_cases h1 : x = stripWs raw
        · subst h1
          simp
        · by_cases h2 : x ∈ seen <;> simp [h1, h2]
    · rw [if_neg (fun hc => hs hc.1)]
      rw [ih seen]
      have hsb : staticKeep (stripWs raw) = false := by
        simpa using hs
      simp [hsb]

/-- Number of occurrences of a line in a list of lines. -/
def countOcc (L : List (List Char)) (x : List Char) : Nat :=
  (L.filter (fun y => decide (y = x))).length

theorem countOcc_eq_one (L : List (List Char)) (x : List Char)
    (hnd : L.Nodup) (hx : x ∈ L) : countOcc L x = 1 := by
  induction L with
  | nil => simp at hx
  | cons a L ih =>
    rcases List.mem_cons.mp hx with rfl | hx2
    · have ha : x ∉ L := (List.nodup_cons.mp hnd).1
      unfold countOcc
      rw [List.filter_cons_of_pos (by simp)]
      have hf : L.filter (fun y => decide (y = x)) = [] :=
        List.filter_eq_nil.mpr (fun b hb => by
          simp only [decide_eq_true_eq]
          intro he
          exact ha (he ▸ hb))
      simp [hf]
    · have hxa : x ≠ a := by
        intro he
        exact (List.nodup_cons.mp hnd).1 (he ▸ hx2)
      unfold countOcc
      rw [List.filter_cons_of_neg (by simp [hxa.symm])]
      exact ih (List.nodup_cons.mp hnd).2 hx2

/-- C7: the kept lines of the extraction filter are exactly the statically
acceptable trimmed lines deduplicated by first occurrence (so a repeated
non-trivial line is kept once, at the position of its first kept
occurrence, compared only against earlier kept lines); the output has no
duplicate lines, and every acceptable line occurring in the input occurs
exactly once in the output. -/
theorem c7_extraction_dedup (lines : List (List Char)) :
    filterLines [] lines = dedupFirst ((lines.map stripWs).filter staticKeep) ∧
    (filterLines [] lines).Nodup ∧
    (∀ l : List Char, staticKeep l = true → l ∈ lines.map stripWs →
      countOcc (filterLines [] lines) l = 1) := by
  have he : filterLines [] lines = dedupFirst ((lines.map stripWs).filter staticKeep) := by
    have h := filterLines_eq_dedupFirst lines []
    simpa using h
  refine ⟨he, ?_, ?_⟩
  · rw [he]
    exact dedupFirst_nodup _
  · intro l hst hmem
    rw [he]
    refine countOcc_eq_one _ _ (dedupFirst_nodup _) ?_
    exact (mem_dedupFirst_iff _ l).mpr (List.mem_filter.mpr ⟨hmem, hst⟩)

/-- A flattened document in which one non-trivial line occurs twice. -/
def demoLines : List (List Char) :=
  ["University overview text", "short", "University overview text",
   "!!!", "Another long informative line"].map String.toList

/-- Witness for C7: the duplicated non-trivial line of `demoLines` appears
exactly once in the cleaned output. -/
theorem c7_extraction_dedup_witness :
    countOcc (filterLines [] demoLines) "University overview text".toList = 1 :=
  (c7_extraction_dedup demoLines).2.2 _ (by decide) (by decide)
